import Mathlib

set_option maxHeartbeats 1000000

/- Shallow embedding of analyze.py: tokens, chunks, the base chunker,
   the phrase combination engine, candidate aggregation, occurrence
   mapping and the keyword filtering pipeline. Surfaces are lists of
   characters, so lengths agree with Python character counts. -/

structure Token where
  surface : List Char
  part_of_speech : String
  infl_form : String
deriving DecidableEq

structure Chunk where
  surface : List Char
  tokens : List Token
  pos : String
deriving DecidableEq

/-- Split a character list at commas, the semantics of Python
str.split(","): no separator yields one field, a trailing separator
yields a final empty field. -/
def splitComma : List Char → List (List Char)
  | [] => [[]]
  | c :: cs =>
    if c = ',' then [] :: splitComma cs
    else
      match splitComma cs with
      | [] => [[c]]
      | p :: ps => (c :: p) :: ps

/-- Major part of speech, Python token["part_of_speech"].split(",")[0]. -/
def posMajor (t : Token) : String :=
  String.mk ((splitComma t.part_of_speech.toList).headD [])

/-- Secondary part of speech, Python token["part_of_speech"].split(",")[1]. -/
def posSub (t : Token) : String :=
  String.mk ((splitComma t.part_of_speech.toList).getD 1 [])

/-- Concatenation of token surfaces, Python "".join(t["surface"] for t in ts). -/
def joinSurf (ts : List Token) : List Char := (ts.map Token.surface).flatten

/-- Predicate for the inner loop of rule 1 of create_base_chunks. -/
def isNounish (t : Token) : Bool := posMajor t == "名詞" || posMajor t == "接頭詞"

/-- Predicate for the inner loop of rule 3 of create_base_chunks. -/
def isAuxVerb (t : Token) : Bool := posMajor t == "助動詞"

/-- create_base_chunks of analyze.py, lines 85 to 149, with a fuel
argument equal to the number of remaining tokens; every iteration of the
Python while loop consumes at least one token, so fuel tokens.length is
always enough. -/
def baseChunksAux : Nat → List Token → List Chunk
  | _, [] => []
  | 0, _ :: _ => []
  | n + 1, t :: ts =>
    let pos := posMajor t
    if pos = "接頭詞" ∨ pos = "名詞" then
      let run := t :: ts.takeWhile isNounish
      let rest := ts.dropWhile isNounish
      { surface := joinSurf run, tokens := run,
        pos := if 1 < run.length ∨ posMajor t = "接頭詞" then "名詞句" else "名詞" }
        :: baseChunksAux n rest
    else if pos = "形容詞" ∨ pos = "連体詞" ∨ pos = "副詞" ∨ pos = "形容動詞" then
      { surface := t.surface, tokens := [t], pos := pos } :: baseChunksAux n ts
    else if pos = "動詞" then
      let run := t :: ts.takeWhile isAuxVerb
      let rest := ts.dropWhile isAuxVerb
      { surface := joinSurf run, tokens := run, pos := "動詞句" } :: baseChunksAux n rest
    else
      { surface := t.surface, tokens := [t], pos := pos } :: baseChunksAux n ts

def create_base_chunks (ts : List Token) : List Chunk := baseChunksAux ts.length ts

theorem joinSurf_cons (t : Token) (ts : List Token) :
    joinSurf (t :: ts) = t.surface ++ joinSurf ts := by
  simp [joinSurf]

theorem joinSurf_append (a b : List Token) :
    joinSurf (a ++ b) = joinSurf a ++ joinSurf b := by
  simp [joinSurf]

theorem baseChunksAux_tokens_join :
    ∀ n (ts : List Token), ts.length ≤ n →
      ((baseChunksAux n ts).map Chunk.tokens).flatten = ts := by
  intro n
  induction n with
  | zero =>
    intro ts h
    cases ts with
    | nil => simp [baseChunksAux]
    | cons t ts => simp at h
  | succ n ih =>
    intro ts h
    cases ts with
    | nil => simp [baseChunksAux]
    | cons t ts =>
      have hts : ts.length ≤ n := by
        simp at h; omega
      have hrest1 : (ts.dropWhile isNounish).length ≤ n :=
        le_trans (List.dropWhile_sublist isNounish).length_le hts
      have hrest2 : (ts.dropWhile isAuxVerb).length ≤ n :=
        le_trans (List.dropWhile_sublist isAuxVerb).length_le hts
      simp only [baseChunksAux]
      split_ifs with h1 h2 h3 <;>
        simp [ih _ hts, ih _ hrest1, ih _ hrest2]

theorem baseChunksAux_surfaces_join :
    ∀ n (ts : List Token), ts.length ≤ n →
      ((baseChunksAux n ts).map Chunk.surface).flatten = joinSurf ts := by
  intro n
  induction n with
  | zero =>
    intro ts h
    cases ts with
    | nil => simp [baseChunksAux, joinSurf]
    | cons t ts => simp at h
  | succ n ih =>
    intro ts h
    cases ts with
    | nil => simp [baseChunksAux, joinSurf]
    | cons t ts =>
      have hts : ts.length ≤ n := by
        simp at h; omega
      have hrest1 : (ts.dropWhile isNounish).length ≤ n :=
        le_trans (List.dropWhile_sublist isNounish).length_le hts
      have hrest2 : (ts.dropWhile isAuxVerb).length ≤ n :=
        le_trans (List.dropWhile_sublist isAuxVerb).length_le hts
      have hsplit1 : t :: ts = (t :: ts.takeWhile isNounish) ++ ts.dropWhile isNounish := by
        rw [List.cons_append, List.takeWhile_append_dropWhile]
      have hsplit2 : t :: ts = (t :: ts.takeWhile isAuxVerb) ++ ts.dropWhile isAuxVerb := by
        rw [List.cons_append, List.takeWhile_append_dropWhile]
      simp only [baseChunksAux]
      split_ifs with h1 h2 h3 h4
      · simp only [List.map_cons, List.flatten_cons, ih _ hrest1]
        rw [← joinSurf_append, ← hsplit1]
      · simp only [List.map_cons, List.flatten_cons, ih _ hrest1]
        rw [← joinSurf_append, ← hsplit1]
      · simp only [List.map_cons, List.flatten_cons, ih _ hts, joinSurf_cons]
      · simp only [List.map_cons, List.flatten_cons, ih _ hrest2]
        rw [← joinSurf_append, ← hsplit2]
      · simp only [List.map_cons, List.flatten_cons, ih _ hts, joinSurf_cons]

theorem baseChunksAux_surface_inv :
    ∀ n (ts : List Token), ∀ c ∈ baseChunksAux n ts, c.surface = joinSurf c.tokens := by
  intro n
  induction n with
  | zero =>
    intro ts c hc
    cases ts with
    | nil => simp [baseChunksAux] at hc
    | cons t ts => simp [baseChunksAux] at hc
  | succ n ih =>
    intro ts c hc
    cases ts with
    | nil => simp [baseChunksAux] at hc
    | cons t ts =>
      simp only [baseChunksAux] at hc
      split_ifs at hc with h1 h2 h3 <;>
        rcases List.mem_cons.mp hc with h | h <;>
          first
          | (subst h; simp [joinSurf])
          | exact ih _ _ h

/-- C6: concatenating the surfaces of all base chunker output chunks, in
order, equals the concatenation of all input token surfaces, and the
chunks partition the token sequence exactly (no gaps, no overlaps). -/
theorem base_chunker_coverage (ts : List Token) :
    ((create_base_chunks ts).map Chunk.tokens).flatten = ts
    ∧ ((create_base_chunks ts).map Chunk.surface).flatten = joinSurf ts :=
  ⟨baseChunksAux_tokens_join ts.length ts le_rfl,
   baseChunksAux_surfaces_join ts.length ts le_rfl⟩

/- The phrase combination engine, combine_chunks of analyze.py, lines 151
   to 346. The Python code scans the chunk list left to right inside a
   while loop; each iteration of the outer loop is one full pass. Rule
   guards are written as Bool tests mirroring the Python conditions. -/

def dummyToken : Token := ⟨[], "", ""⟩

/-- Rule A, lines 157 to 172: noun phrase, attributive particle, noun phrase. -/
def ruleA (c0 c1 c2 : Chunk) : Bool :=
  (c0.pos == "名詞句" || c0.pos == "名詞") && c1.pos == "助詞"
    && c1.tokens.length == 1 && posSub (c1.tokens.headD dummyToken) == "連体化"
    && (c2.pos == "名詞句" || c2.pos == "名詞")

/-- Rule B, lines 174 to 188: modifier followed by a modified chunk. -/
def ruleB (c0 c1 : Chunk) : Bool :=
  (c0.pos == "形容詞" || c0.pos == "連体詞" || c0.pos == "副詞" || c0.pos == "形容動詞")
    && (c1.pos == "名詞句" || c1.pos == "動詞句" || c1.pos == "形容詞" || c1.pos == "名詞")

/-- Rule I, lines 194 to 209 and again lines 321 to 336: verb phrase,
connective particle, verb phrase. -/
def ruleI (c0 c1 c2 : Chunk) : Bool :=
  c0.pos == "動詞句" && c1.pos == "助詞" && c1.tokens.length == 1
    && posSub (c1.tokens.headD dummyToken) == "接続助詞" && c2.pos == "動詞句"

/-- Rule D, lines 219 to 234: noun phrase, が or は, adjective. -/
def ruleD (c0 c1 c2 : Chunk) : Bool :=
  (c0.pos == "名詞句" || c0.pos == "名詞") && c1.pos == "助詞"
    && (c1.surface == "が".toList || c1.surface == "は".toList)
    && (c2.pos == "形容詞" || c2.pos == "形容動詞")

/-- Rule E, lines 236 to 255: parallel structures over a coordinating particle. -/
def ruleE (c0 c1 c2 : Chunk) : Bool :=
  c1.pos == "助詞" && c1.tokens.length == 1
    && posSub (c1.tokens.headD dummyToken) == "並立助詞"
    && (((c0.pos == "名詞" || c0.pos == "名詞句") && (c2.pos == "名詞" || c2.pos == "名詞句"))
        || c0.pos == c2.pos)

/-- Rule F, lines 257 to 274: cause or reason over ので or から. -/
def ruleF (c0 c1 c2 : Chunk) : Bool :=
  c1.pos == "助詞" && (c1.surface == "ので".toList || c1.surface == "から".toList)
    && !(c0.pos == "助詞") && !(c0.pos == "記号")
    && !(c2.pos == "助詞") && !(c2.pos == "記号")

/-- The last verb token of a chunk, the reversed scan of lines 283 to 287. -/
def lastVerbOf (c : Chunk) : Option Token :=
  c.tokens.reverse.find? (fun t => posMajor t == "動詞")

/-- Rule G, lines 276 to 299: verb phrase modifying a following noun phrase. -/
def ruleG (c0 c1 : Chunk) : Bool :=
  c0.pos == "動詞句" && (c1.pos == "名詞句" || c1.pos == "名詞")
    && (match lastVerbOf c0 with
        | some v => v.infl_form == "基本形" || v.infl_form == "連体形"
        | none => false)

/-- Rule H, lines 301 to 319: verb phrase ending in an auxiliary verb
modifying a following noun phrase. -/
def ruleH (c0 c1 : Chunk) : Bool :=
  c0.pos == "動詞句" && (c1.pos == "名詞句" || c1.pos == "名詞")
    && (match c0.tokens.getLast? with
        | some t => posMajor t == "助動詞"
        | none => false)

/-- A merged chunk: tokens are the concatenation of the merged chunks
tokens, the surface is the concatenation of those tokens surfaces, as in
every reachable merge site of combine_chunks. -/
def mergeChunk (p : String) (cs : List Chunk) : Chunk :=
  let ts := (cs.map Chunk.tokens).flatten
  { surface := joinSurf ts, tokens := ts, pos := p }

/-- One attempt to combine at the current position, in the textual order
of the rules of combine_chunks. Rule C, lines 211 to 217, only assigns a
local variable and neither builds a chunk nor advances the cursor, so it
has no effect on the output and no branch here corresponds to it. The
second occurrence of rule I, lines 321 to 336, is checked after the first
one and therefore never fires; it is kept for fidelity. Rules needing
three chunks are guarded in Python by i + 2 < len(chunks), so with only
two chunks left just rules B, G and H are tried. -/
def tryRules : List Chunk → Option (Chunk × List Chunk)
  | c0 :: c1 :: c2 :: rest =>
    if ruleA c0 c1 c2 then some (mergeChunk "名詞句" [c0, c1, c2], rest)
    else if ruleB c0 c1 then some (mergeChunk c1.pos [c0, c1], c2 :: rest)
    else if ruleI c0 c1 c2 then some (mergeChunk "動詞句" [c0, c1, c2], rest)
    else if ruleD c0 c1 c2 then some (mergeChunk (c2.pos ++ "句") [c0, c1, c2], rest)
    else if ruleE c0 c1 c2 then some (mergeChunk c0.pos [c0, c1, c2], rest)
    else if ruleF c0 c1 c2 then some (mergeChunk c2.pos [c0, c1, c2], rest)
    else if ruleG c0 c1 then some (mergeChunk "名詞句" [c0, c1], c2 :: rest)
    else if ruleH c0 c1 then some (mergeChunk "名詞句" [c0, c1], c2 :: rest)
    else if ruleI c0 c1 c2 then some (mergeChunk "動詞句" [c0, c1, c2], rest)
    else none
  | [c0, c1] =>
    if ruleB c0 c1 then some (mergeChunk c1.pos [c0, c1], [])
    else if ruleG c0 c1 then some (mergeChunk "名詞句" [c0, c1], [])
    else if ruleH c0 c1 then some (mergeChunk "名詞句" [c0, c1], [])
    else none
  | _ => none

/-- One full pass of the inner while loop of combine_chunks, building
new_chunks and the did_combine flag. Fuel bounds the number of cursor
steps; the pass consumes at least one chunk per step, so fuel equal to
the list length is always enough. -/
def combinePassAux : Nat → List Chunk → List Chunk × Bool
  | _, [] => ([], false)
  | 0, l => (l, false)
  | n + 1, c0 :: rest =>
    match tryRules (c0 :: rest) with
    | some (c, rem) => (c :: (combinePassAux n rem).1, true)
    | none =>
      let r := combinePassAux n rest
      (c0 :: r.1, r.2)

def combinePass (l : List Chunk) : List Chunk × Bool := combinePassAux l.length l

/-- The outer while True loop of combine_chunks: repeat passes until one
reports no combination. A pass that combines shrinks the list, so
length + 1 rounds always reach the fixpoint. -/
def combineLoopAux : Nat → List Chunk → List Chunk
  | 0, l => l
  | n + 1, l =>
    let r := combinePass l
    if r.2 then combineLoopAux n r.1 else r.1

def combine_chunks (l : List Chunk) : List Chunk := combineLoopAux (l.length + 1) l

theorem tryRules_some_length :
    ∀ {l : List Chunk} {c : Chunk} {rem : List Chunk},
      tryRules l = some (c, rem) → rem.length + 2 ≤ l.length := by
  intro l c rem h
  rcases l with _ | ⟨c0, _ | ⟨c1, _ | ⟨c2, rest⟩⟩⟩
  · simp [tryRules] at h
  · simp [tryRules] at h
  · simp only [tryRules] at h
    split_ifs at h <;>
      (simp only [Option.some.injEq, Prod.mk.injEq] at h
       obtain ⟨-, rfl⟩ := h
       simp)
  · simp only [tryRules] at h
    split_ifs at h <;>
      (simp only [Option.some.injEq, Prod.mk.injEq] at h
       obtain ⟨-, rfl⟩ := h
       simp)

theorem tryRules_some_subset :
    ∀ {l : List Chunk} {c : Chunk} {rem : List Chunk},
      tryRules l = some (c, rem) → ∀ x ∈ rem, x ∈ l := by
  intro l c rem h
  rcases l with _ | ⟨c0, _ | ⟨c1, _ | ⟨c2, rest⟩⟩⟩
  · simp [tryRules] at h
  · simp [tryRules] at h
  · simp only [tryRules] at h
    split_ifs at h <;>
      (simp only [Option.some.injEq, Prod.mk.injEq] at h
       obtain ⟨-, rfl⟩ := h
       simp)
  · simp only [tryRules] at h
    split_ifs at h <;>
      (simp only [Option.some.injEq, Prod.mk.injEq] at h
       obtain ⟨-, rfl⟩ := h
       intro x hx
       simp only [List.mem_cons] at hx ⊢
       tauto)

theorem tryRules_some_surface :
    ∀ {l : List Chunk} {c : Chunk} {rem : List Chunk},
      tryRules l = some (c, rem) → c.surface = joinSurf c.tokens := by
  intro l c rem h
  rcases l with _ | ⟨c0, _ | ⟨c1, _ | ⟨c2, rest⟩⟩⟩
  · simp [tryRules] at h
  · simp [tryRules] at h
  · simp only [tryRules] at h
    split_ifs at h <;>
      (simp only [Option.some.injEq, Prod.mk.injEq] at h
       obtain ⟨rfl, -⟩ := h
       rfl)
  · simp only [tryRules] at h
    split_ifs at h <;>
      (simp only [Option.some.injEq, Prod.mk.injEq] at h
       obtain ⟨rfl, -⟩ := h
       rfl)

theorem combinePassAux_length_le :
    ∀ n (l : List Chunk), (combinePassAux n l).1.length ≤ l.length := by
  intro n
  induction n with
  | zero =>
    intro l
    cases l <;> simp [combinePassAux]
  | succ n ih =>
    intro l
    cases l with
    | nil => simp [combinePassAux]
    | cons c0 rest =>
      simp only [combinePassAux]
      cases htr : tryRules (c0 :: rest) with
      | some pr =>
        obtain ⟨c, rem⟩ := pr
        have hlen := tryRules_some_length htr
        simp only [List.length_cons] at hlen ⊢
        have := ih rem
        omega
      | none =>
        simp only [List.length_cons]
        have := ih rest
        omega

theorem combinePassAux_false_eq :
    ∀ n (l : List Chunk), (combinePassAux n l).2 = false → (combinePassAux n l).1 = l := by
  intro n
  induction n with
  | zero =>
    intro l h
    cases l <;> simp [combinePassAux]
  | succ n ih =>
    intro l h
    cases l with
    | nil => simp [combinePassAux]
    | cons c0 rest =>
      simp only [combinePassAux] at h ⊢
      cases htr : tryRules (c0 :: rest) with
      | some pr =>
        obtain ⟨c, rem⟩ := pr
        rw [htr] at h
        simp at h
      | none =>
        rw [htr] at h
        have h' : (combinePassAux n rest).2 = false := h
        show c0 :: (combinePassAux n rest).1 = c0 :: rest
        rw [ih rest h']

theorem combinePassAux_true_lt :
    ∀ n (l : List Chunk), l.length ≤ n → (combinePassAux n l).2 = true →
      (combinePassAux n l).1.length < l.length := by
  intro n
  induction n with
  | zero =>
    intro l hl h
    cases l with
    | nil => simp [combinePassAux] at h
    | cons c0 rest => simp at hl
  | succ n ih =>
    intro l hl h
    cases l with
    | nil => simp [combinePassAux] at h
    | cons c0 rest =>
      simp only [combinePassAux] at h ⊢
      cases htr : tryRules (c0 :: rest) with
      | some pr =>
        obtain ⟨c, rem⟩ := pr
        have hlen := tryRules_some_length htr
        have hle := combinePassAux_length_le n rem
        simp only [List.length_cons] at hlen ⊢
        omega
      | none =>
        rw [htr] at h
        have h' : (combinePassAux n rest).2 = true := h
        have hrest : rest.length ≤ n := by
          simp at hl; omega
        have hlt := ih rest hrest h'
        show (c0 :: (combinePassAux n rest).1).length < (c0 :: rest).length
        simp only [List.length_cons]
        omega

theorem combinePass_true_lt (l : List Chunk) :
    (combinePass l).2 = true → (combinePass l).1.length < l.length :=
  combinePassAux_true_lt l.length l le_rfl

theorem combinePass_false_eq (l : List Chunk) :
    (combinePass l).2 = false → (combinePass l).1 = l :=
  combinePassAux_false_eq l.length l

theorem combineLoopAux_fix :
    ∀ n (l : List Chunk), l.length < n →
      (combinePass (combineLoopAux n l)).2 = false := by
  intro n
  induction n with
  | zero =>
    intro l hl
    omega
  | succ n ih =>
    intro l hl
    simp only [combineLoopAux]
    cases hr : (combinePass l).2 with
    | false =>
      simp only [hr, if_neg Bool.false_ne_true]
      rw [combinePass_false_eq l hr]
      exact hr
    | true =>
      simp only [hr, if_pos rfl]
      have hless := combinePass_true_lt l hr
      exact ih _ (by omega)

theorem combine_chunks_fix (l : List Chunk) :
    (combinePass (combine_chunks l)).2 = false :=
  combineLoopAux_fix (l.length + 1) l (by omega)

/-- C9: each full pass of the phrase combination engine either merges at
least one pair of chunks, strictly shrinking the chunk list, or merges
nothing and returns the list unchanged, at which point the outer loop
exits; the loop stops at a pass fixpoint, so the procedure cannot run
forever. -/
theorem combine_chunks_terminates (l : List Chunk) :
    ((combinePass l).2 = true → (combinePass l).1.length < l.length)
    ∧ ((combinePass l).2 = false → (combinePass l).1 = l)
    ∧ (combinePass (combine_chunks l)).2 = false :=
  ⟨combinePass_true_lt l, combinePass_false_eq l, combine_chunks_fix l⟩

theorem combinePassAux_surface_inv :
    ∀ n (l : List Chunk), (∀ c ∈ l, c.surface = joinSurf c.tokens) →
      ∀ c ∈ (combinePassAux n l).1, c.surface = joinSurf c.tokens := by
  intro n
  induction n with
  | zero =>
    intro l hl c hc
    cases l with
    | nil => simp [combinePassAux] at hc
    | cons c0 rest => exact hl c hc
  | succ n ih =>
    intro l hl c hc
    cases l with
    | nil => simp [combinePassAux] at hc
    | cons c0 rest =>
      simp only [combinePassAux] at hc
      cases htr : tryRules (c0 :: rest) with
      | some pr =>
        obtain ⟨cm, rem⟩ := pr
        rw [htr] at hc
        simp only [List.mem_cons] at hc
        rcases hc with rfl | hc
        · exact tryRules_some_surface htr
        · exact ih rem (fun x hx => hl x (tryRules_some_subset htr x hx)) c hc
      | none =>
        rw [htr] at hc
        simp only [List.mem_cons] at hc
        rcases hc with rfl | hc
        · exact hl _ (List.mem_cons_self _ _)
        · exact ih rest (fun x hx => hl x (List.mem_cons_of_mem c0 hx)) c hc

theorem combineLoopAux_surface_inv :
    ∀ n (l : List Chunk), (∀ c ∈ l, c.surface = joinSurf c.tokens) →
      ∀ c ∈ combineLoopAux n l, c.surface = joinSurf c.tokens := by
  intro n
  induction n with
  | zero =>
    intro l hl c hc
    exact hl c hc
  | succ n ih =>
    intro l hl c hc
    simp only [combineLoopAux] at hc
    by_cases hr : (combinePass l).2 = true
    · rw [if_pos hr] at hc
      exact ih _ (combinePassAux_surface_inv l.length l hl) c hc
    · rw [if_neg hr] at hc
      exact combinePassAux_surface_inv l.length l hl c hc

/-- C7: every chunk produced at every step has its surface equal to the
ordered concatenation of its token surfaces: base chunks satisfy the
invariant, one engine pass preserves it, and the chunks returned by
combine_chunks on the base chunks of any token sequence satisfy it. -/
theorem chunk_surface_invariant (ts : List Token) (l : List Chunk) :
    (∀ c ∈ create_base_chunks ts, c.surface = joinSurf c.tokens)
    ∧ ((∀ c ∈ l, c.surface = joinSurf c.tokens) →
        ∀ c ∈ (combinePass l).1, c.surface = joinSurf c.tokens)
    ∧ ((∀ c ∈ l, c.surface = joinSurf c.tokens) →
        ∀ c ∈ combine_chunks l, c.surface = joinSurf c.tokens)
    ∧ (∀ c ∈ combine_chunks (create_base_chunks ts), c.surface = joinSurf c.tokens) :=
  ⟨baseChunksAux_surface_inv ts.length ts,
   combinePassAux_surface_inv l.length l,
   combineLoopAux_surface_inv (l.length + 1) l,
   combineLoopAux_surface_inv _ _ (baseChunksAux_surface_inv ts.length ts)⟩

/- Concrete tokens and chunks used to evaluate the engine on small
   inputs. Part of speech strings follow the janome field layout. -/

def tokNoun : Token := ⟨"本".toList, "名詞,一般,*,*,*,*", "*"⟩
def tokWo : Token := ⟨"を".toList, "助詞,格助詞,一般,*,*,*", "*"⟩
def tokVerb : Token := ⟨"読む".toList, "動詞,自立,*,*,五段・マ行,基本形", "基本形"⟩
def tokMod : Token := ⟨"その".toList, "連体詞,*,*,*,*,*", "*"⟩
def tokNoun2 : Token := ⟨"技術".toList, "名詞,一般,*,*,*,*", "*"⟩
def tokNode : Token := ⟨"ので".toList, "助詞,接続助詞,*,*,*,*", "*"⟩

def chunkNoun : Chunk := ⟨"本".toList, [tokNoun], "名詞"⟩
def chunkWo : Chunk := ⟨"を".toList, [tokWo], "助詞"⟩
def chunkVerb : Chunk := ⟨"読む".toList, [tokVerb], "動詞句"⟩
def chunkMod : Chunk := ⟨"その".toList, [tokMod], "連体詞"⟩
def chunkNoun2 : Chunk := ⟨"技術".toList, [tokNoun2], "名詞"⟩
def mergedModNoun : Chunk := mergeChunk "名詞" [chunkMod, chunkNoun2]

/-- C2 (code bug): rule C of combine_chunks, lines 211 to 217, only
assigns combined_tokens and never builds the merged chunk, appends it or
advances the cursor, so execution falls through to the next rule. On a
noun chunk followed by the particle を followed by a verb phrase chunk no
other rule applies, and the engine returns the three chunks unchanged
instead of one merged 動詞句 chunk covering all three surfaces. -/
theorem ruleC_object_merge_missing :
    combine_chunks [chunkNoun, chunkWo, chunkVerb] = [chunkNoun, chunkWo, chunkVerb]
    ∧ (combine_chunks [chunkNoun, chunkWo, chunkVerb]).length = 3 := by
  decide

theorem combine_chunks_terminates_witness :
    (combinePass [chunkMod, chunkNoun2]).1.length
        < ([chunkMod, chunkNoun2] : List Chunk).length
    ∧ (combinePass [chunkNoun, chunkWo, chunkVerb]).1
        = [chunkNoun, chunkWo, chunkVerb] :=
  ⟨(combine_chunks_terminates [chunkMod, chunkNoun2]).1 (by decide),
   (combine_chunks_terminates [chunkNoun, chunkWo, chunkVerb]).2.1 (by decide)⟩

theorem chunk_surface_invariant_witness :
    mergedModNoun.surface = joinSurf mergedModNoun.tokens :=
  (chunk_surface_invariant [] [chunkMod, chunkNoun2]).2.2.1 (by decide)
    mergedModNoun (by decide)

/- Candidate aggregation, analyze.py lines 394 to 406: for every document
   the base chunks and the chunks returned by combine_chunks are scanned,
   and every chunk whose surface is longer than one character contributes
   the pair (surface, pos) to all_generated_chunks. There is no condition
   on the chunk role in the source. -/

def all_generated_chunks (ts : List Token) : List (List Char × String) :=
  (create_base_chunks ts ++ combine_chunks (create_base_chunks ts)).filterMap
    (fun c => if 1 < c.surface.length then some (c.surface, c.pos) else none)

/-- C3 (amended): a chunk of the base chunker output or of the final
output of the phrase combination engine is recorded as a keyword
candidate surface precisely when its surface length exceeds one
character, whatever its role. -/
theorem all_generated_chunks_iff (ts : List Token) (c : Chunk)
    (h : c ∈ create_base_chunks ts ++ combine_chunks (create_base_chunks ts)) :
    (c.surface, c.pos) ∈ all_generated_chunks ts ↔ 1 < c.surface.length := by
  constructor
  · intro hm
    rcases List.mem_filterMap.mp hm with ⟨c', hc', hf⟩
    by_cases hlen : 1 < c'.surface.length
    · rw [if_pos hlen] at hf
      simp only [Option.some.injEq, Prod.mk.injEq] at hf
      rw [← hf.1]
      exact hlen
    · rw [if_neg hlen] at hf
      exact absurd hf (by simp)
  · intro hlen
    exact List.mem_filterMap.mpr ⟨c, h, by rw [if_pos hlen]⟩

theorem all_generated_chunks_iff_witness :
    ("技術".toList, "名詞") ∈ all_generated_chunks [tokNoun2] :=
  (all_generated_chunks_iff [tokNoun2] chunkNoun2 (by decide)).mpr (by decide)

/-- C3 (counterexample): a particle chunk of length two is recorded by
all_generated_chunks with role 助詞, which is none of the phrasal roles
名詞句, 名詞, 動詞句, 形容詞句, 形容動詞句, refuting the claim that only
NP, VP and ADJP chunks become candidates. -/
theorem particle_recorded_counterexample :
    ("ので".toList, "助詞") ∈ all_generated_chunks [tokNode]
    ∧ "助詞" ≠ "名詞句" ∧ "助詞" ≠ "名詞" ∧ "助詞" ≠ "動詞句"
    ∧ "助詞" ≠ "形容詞句" ∧ "助詞" ≠ "形容動詞句" := by
  decide

/- The occurrence mapper, analyze.py lines 419 to 440: keywords are
   escaped and grouped into fixed size batches, each batch is compiled
   into one alternation pattern, every document content is scanned with
   re.findall for every batch, the per document results are collected in
   a set, and each found keyword gets the document id appended to its
   list. -/

/-- S occurs in L as a contiguous literal substring. -/
def occursIn (S L : List Char) : Prop := ∃ u v, u ++ S ++ v = L

theorem isPrefixOf_iff_append :
    ∀ (S L : List Char), S.isPrefixOf L = true ↔ ∃ v, S ++ v = L := by
  intro S
  induction S with
  | nil =>
    intro L
    simp [List.isPrefixOf]
  | cons a as ih =>
    intro L
    cases L with
    | nil => simp [List.isPrefixOf]
    | cons b bs =>
      simp only [List.isPrefixOf, Bool.and_eq_true, beq_iff_eq]
      constructor
      · rintro ⟨rfl, h⟩
        rcases (ih bs).mp h with ⟨v, rfl⟩
        exact ⟨v, rfl⟩
      · rintro ⟨v, hv⟩
        injection hv with h1 h2
        subst h1
        exact ⟨rfl, (ih bs).mpr ⟨v, h2⟩⟩

theorem occursIn_cons (c : Char) (S L : List Char) :
    occursIn S L → occursIn S (c :: L) := by
  rintro ⟨u, v, rfl⟩
  exact ⟨c :: u, v, rfl⟩

theorem occursIn_drop (k : Nat) (S L : List Char) :
    occursIn S (L.drop k) → occursIn S L := by
  rintro ⟨u, v, h⟩
  refine ⟨L.take k ++ u, v, ?_⟩
  simp only [List.append_assoc] at h ⊢
  rw [h, List.take_append_drop]

/-- Python re.findall of the alternation of the escaped keyword literals
alts over content s: scan left to right; at each position the first
alternative that matches, that is, is a prefix of the remaining content,
wins; the match is recorded and scanning resumes after it; when no
alternative matches the scan advances one character. The source filters
out empty keywords before building the pattern, so the isEmpty guard,
which keeps the fuel argument honest, is never taken on real inputs. -/
def findallAux : Nat → List (List Char) → List Char → List (List Char)
  | 0, _, _ => []
  | _ + 1, _, [] => []
  | n + 1, alts, c :: cs =>
    match alts.find? (fun a => a.isPrefixOf (c :: cs)) with
    | some a =>
      if a.isEmpty then findallAux n alts cs
      else a :: findallAux n alts ((c :: cs).drop a.length)
    | none => findallAux n alts cs

def findallLits (alts : List (List Char)) (s : List Char) : List (List Char) :=
  findallAux s.length alts s

theorem findallAux_sound :
    ∀ n (alts : List (List Char)) (s kw : List Char),
      kw ∈ findallAux n alts s → kw ∈ alts ∧ occursIn kw s := by
  intro n
  induction n with
  | zero =>
    intro alts s kw h
    simp [findallAux] at h
  | succ n ih =>
    intro alts s kw h
    cases s with
    | nil => simp [findallAux] at h
    | cons c cs =>
      simp only [findallAux] at h
      cases hf : alts.find? (fun a => a.isPrefixOf (c :: cs)) with
      | some a =>
        rw [hf] at h
        have h' : kw ∈ (if a.isEmpty = true then findallAux n alts cs
            else a :: findallAux n alts ((c :: cs).drop a.length)) := h
        by_cases he : a.isEmpty = true
        · rw [if_pos he] at h'
          obtain ⟨hmem, hocc⟩ := ih alts cs kw h'
          exact ⟨hmem, occursIn_cons c kw cs hocc⟩
        · rw [if_neg he] at h'
          rcases List.mem_cons.mp h' with rfl | h
          · refine ⟨List.mem_of_find?_eq_some hf, ?_⟩
            have hp := List.find?_some hf
            simp only at hp
            rcases (isPrefixOf_iff_append kw (c :: cs)).mp hp with ⟨v, hv⟩
            exact ⟨[], v, by simpa using hv⟩
          · obtain ⟨hmem, hocc⟩ := ih alts _ kw h
            exact ⟨hmem, occursIn_drop a.length kw (c :: cs) hocc⟩
      | none =>
        rw [hf] at h
        obtain ⟨hmem, hocc⟩ := ih alts cs kw h
        exact ⟨hmem, occursIn_cons c kw cs hocc⟩

theorem findallAux_singleton_complete :
    ∀ n (s kw : List Char), s.length ≤ n → kw ≠ [] → occursIn kw s →
      kw ∈ findallAux n [kw] s := by
  intro n
  induction n with
  | zero =>
    intro s kw hl hne hocc
    rcases s with _ | ⟨c, cs⟩
    · rcases hocc with ⟨u, v, h⟩
      simp [List.append_eq_nil] at h
      exact absurd h.2.1 hne
    · simp at hl
  | succ n ih =>
    intro s kw hl hne hocc
    cases s with
    | nil =>
      rcases hocc with ⟨u, v, h⟩
      simp [List.append_eq_nil] at h
      exact absurd h.2.1 hne
    | cons c cs =>
      have hcs : cs.length ≤ n := by simp at hl; omega
      simp only [findallAux]
      cases hp : kw.isPrefixOf (c :: cs) with
      | true =>
        have hfind : List.find? (fun a => a.isPrefixOf (c :: cs)) [kw] = some kw := by
          simp [List.find?, hp]
        rw [hfind]
        have hee : kw.isEmpty = false := by
          cases kw with
          | nil => exact absurd rfl hne
          | cons a as => rfl
        show kw ∈ (if kw.isEmpty = true then findallAux n [kw] cs
            else kw :: findallAux n [kw] ((c :: cs).drop kw.length))
        rw [hee]
        simp
      | false =>
        have hfind : List.find? (fun a => a.isPrefixOf (c :: cs)) [kw] = none := by
          simp [List.find?, hp]
        rw [hfind]
        apply ih cs kw hcs hne
        rcases hocc with ⟨u, v, hu⟩
        cases u with
        | nil =>
          exfalso
          have : kw.isPrefixOf (c :: cs) = true :=
            (isPrefixOf_iff_append kw (c :: cs)).mpr ⟨v, by simpa using hu⟩
          rw [hp] at this
          exact Bool.false_ne_true this
        | cons d u =>
          injection hu with h1 h2
          exact ⟨u, v, h2⟩

/-- The per document found set, analyze.py lines 431 to 433: the union of
the findall results of every batch pattern, duplicates collapsed. -/
def found_keywords_in_file (batches : List (List (List Char)))
    (content : List Char) : List (List Char) :=
  (batches.bind (fun b => findallLits b content)).dedup

/-- keyword_to_episodes, analyze.py lines 419 to 435, viewed per keyword:
the document ids, in corpus order, of the documents whose found set
contains the keyword. -/
def keyword_to_episodes (batches : List (List (List Char)))
    (docs : List (String × List Char)) (kw : List Char) : List String :=
  (docs.filter (fun d => decide (kw ∈ found_keywords_in_file batches d.2))).map Prod.fst

theorem found_keywords_sound (batches : List (List (List Char)))
    (content kw : List Char) :
    kw ∈ found_keywords_in_file batches content → occursIn kw content := by
  intro h
  rw [found_keywords_in_file, List.mem_dedup] at h
  rcases List.mem_bind.mp h with ⟨b, hb, hkw⟩
  exact (findallAux_sound content.length b content kw hkw).2

/-- C1 (amended): every document listed under a candidate by the
occurrence mapper contains the candidate as a literal substring, and
each document id appears at most once per candidate; conversely, a
candidate that is the sole member of its alternation batch is found in
exactly the documents containing it. With several candidates in one
batch, an earlier alternative can shadow a longer one at the same match
position, so the unrestricted converse fails. -/
theorem keyword_to_episodes_amended (batches : List (List (List Char)))
    (docs : List (String × List Char)) (kw : List Char) :
    (∀ id ∈ keyword_to_episodes batches docs kw,
        ∃ content, (id, content) ∈ docs ∧ occursIn kw content)
    ∧ ((docs.map Prod.fst).Nodup → (keyword_to_episodes batches docs kw).Nodup)
    ∧ (kw ≠ [] → ∀ content : List Char,
        (occursIn kw content ↔ kw ∈ found_keywords_in_file [[kw]] content)) := by
  refine ⟨?_, ?_, ?_⟩
  · intro id hid
    rcases List.mem_map.mp hid with ⟨d, hd, rfl⟩
    rcases List.mem_filter.mp hd with ⟨hdocs, hp⟩
    refine ⟨d.2, ?_, found_keywords_sound batches d.2 kw (of_decide_eq_true hp)⟩
    rw [Prod.mk.eta]
    exact hdocs
  · intro hnd
    exact hnd.sublist ((List.filter_sublist docs).map Prod.fst)
  · intro hne content
    constructor
    · intro hocc
      rw [found_keywords_in_file, List.mem_dedup]
      refine List.mem_bind.mpr ⟨[kw], by simp, ?_⟩
      exact findallAux_singleton_complete content.length content kw le_rfl hne hocc
    · exact found_keywords_sound [[kw]] content kw

/-- C1 (counterexample): the candidate ABC occurs literally in the only
document, but with the batch [AB, ABC] the alternation matches AB first
and the scan resumes after it, so ABC is never found and the document is
not listed under ABC, refuting the claim that listing is equivalent to
substring occurrence regardless of batching. -/
theorem keyword_to_episodes_counterexample :
    occursIn ("ABC".toList) ("ABC".toList)
    ∧ "d1" ∉ keyword_to_episodes [[("AB".toList), ("ABC".toList)]]
        [("d1", "ABC".toList)] ("ABC".toList) :=
  ⟨⟨[], [], by simp⟩, by decide⟩

theorem keyword_to_episodes_amended_witness :
    (∃ content, ("d1", content) ∈ [("d1", "AB".toList)] ∧ occursIn ("AB".toList) content)
    ∧ (keyword_to_episodes [[("AB".toList)]] [("d1", "AB".toList)] ("AB".toList)).Nodup
    ∧ "AB".toList ∈ found_keywords_in_file [[("AB".toList)]] ("AB".toList) := by
  refine ⟨?_, ?_, ?_⟩
  · exact (keyword_to_episodes_amended [[("AB".toList)]]
      [("d1", "AB".toList)] ("AB".toList)).1 "d1" (by decide)
  · exact (keyword_to_episodes_amended [[("AB".toList)]]
      [("d1", "AB".toList)] ("AB".toList)).2.1 (by decide)
  · exact ((keyword_to_episodes_amended [[("AB".toList)]]
      [("d1", "AB".toList)] ("AB".toList)).2.2 (by decide) ("AB".toList)).mp
      ⟨[], [], by simp⟩

/- The filtering pipeline, analyze.py lines 442 to 504. Python compares
   len(episodes) / total with the float literal 0.8 and the absolute
   count difference with total * 0.05; both thresholds are modelled
   exactly over the rationals: c / total < 0.8 iff 5 * c < 4 * total and
   d ≤ total * 0.05 iff 20 * d ≤ total, for a positive total. -/

/-- The keep condition of the frequency filter, analyze.py line 450. -/
def freqCond (total : Nat) (eps : List String) : Prop :=
  2 < eps.length ∧ 5 * eps.length < 4 * total

instance (total : Nat) (eps : List String) : Decidable (freqCond total eps) := by
  unfold freqCond
  infer_instance

/-- frequent_keywords_map, analyze.py lines 447 to 451, over an
association list from keyword to episode list. -/
def frequent_keywords_map (total : Nat) (m : List (List Char × List String)) :
    List (List Char × List String) :=
  m.filter (fun p => decide (freqCond total p.2))

/-- C5: a keyword passes the frequency filter exactly when its document
count c satisfies 2 < c and c / totalDocuments < 0.8; a count of exactly
2 out of at least 10 documents is excluded, and a count of exactly 3 is
included whenever the upper bound also holds. -/
theorem frequency_filter_boundary (total : Nat)
    (m : List (List Char × List String)) (kw : List Char) (eps : List String) :
    ((kw, eps) ∈ frequent_keywords_map total m ↔
      (kw, eps) ∈ m ∧ 2 < eps.length ∧ 5 * eps.length < 4 * total)
    ∧ (10 ≤ total → eps.length = 2 → (kw, eps) ∉ frequent_keywords_map total m)
    ∧ (eps.length = 3 → 15 < 4 * total → (kw, eps) ∈ m →
        (kw, eps) ∈ frequent_keywords_map total m) := by
  have hiff : (kw, eps) ∈ frequent_keywords_map total m ↔
      (kw, eps) ∈ m ∧ 2 < eps.length ∧ 5 * eps.length < 4 * total := by
    simp [frequent_keywords_map, List.mem_filter, freqCond]
  refine ⟨hiff, ?_, ?_⟩
  · intro h10 h2 hmem
    have := (hiff.mp hmem).2.1
    omega
  · intro h3 hub hm
    exact hiff.mpr ⟨hm, by omega, by omega⟩

theorem frequency_filter_boundary_witness :
    ("AB".toList, ["d1", "d2", "d3"])
        ∈ frequent_keywords_map 10 [("AB".toList, ["d1", "d2", "d3"])]
    ∧ ("CD".toList, ["d1", "d2"])
        ∉ frequent_keywords_map 10 [("CD".toList, ["d1", "d2"])] :=
  ⟨(frequency_filter_boundary 10 [("AB".toList, ["d1", "d2", "d3"])]
      ("AB".toList) ["d1", "d2", "d3"]).2.2 (by decide) (by decide) (by decide),
   (frequency_filter_boundary 10 [("CD".toList, ["d1", "d2"])]
      ("CD".toList) ["d1", "d2"]).2.1 (by decide) (by decide)⟩

/- The substring dominance filter, analyze.py lines 454 to 490. -/

/-- The substring set of Python longer_keyword[i:j] for i in
range(len), j in range(i, len + 1), with the full string and the empty
string discarded, lines 468 to 474. Indices j below i contribute the
empty slice, which the filter discards, so iterating j over the full
range is equivalent. -/
def properSubstrings (l : List Char) : List (List Char) :=
  ((List.range l.length).bind (fun i =>
      (List.range (l.length + 1)).map (fun j => (l.drop i).take (j - i)))).filter
    (fun s => !(s == l) && !(s == ([] : List Char)))

/-- The body of the inner loop over substrings, lines 476 to 488: an
already removed shorter keyword is skipped, a shorter keyword outside the
keyword set is skipped, an empty episode list is skipped, and otherwise
the shorter keyword is marked for removal when the episode count
difference is within the threshold. -/
def substrCheck (total : Nat) (counts : List Char → Nat) (kws : List (List Char))
    (L : List Char) (removed : List (List Char)) (s : List Char) : List (List Char) :=
  if s ∈ removed then removed
  else if s ∈ kws then
    if counts s = 0 then removed
    else if 20 * (max (counts L) (counts s) - min (counts L) (counts s)) ≤ total then
      s :: removed
    else removed
  else removed

/-- keywords_to_remove, lines 459 to 488: fold over the keywords sorted
by decreasing length, skipping a longer keyword already removed, and
otherwise scanning all its proper substrings. The sorted list also
serves as the keyword set, as in the source where both come from the
frequency filter survivors. -/
def keywords_to_remove (total : Nat) (counts : List Char → Nat)
    (sortedKeywords : List (List Char)) : List (List Char) :=
  sortedKeywords.foldl (fun removed L =>
    if L ∈ removed then removed
    else (properSubstrings L).foldl (substrCheck total counts sortedKeywords L) removed) []

/-- final_keywords_after_substring, line 490. -/
def final_keywords_after_substring (total : Nat) (counts : List Char → Nat)
    (sortedKeywords : List (List Char)) : List (List Char) :=
  sortedKeywords.filter
    (fun k => decide (k ∉ keywords_to_remove total counts sortedKeywords))

theorem mem_substrCheck (total : Nat) (counts : List Char → Nat)
    (kws : List (List Char)) (L : List Char) (acc : List (List Char))
    (x S : List Char) :
    S ∈ substrCheck total counts kws L acc x ↔
      S ∈ acc ∨ (S = x ∧ x ∉ acc ∧ x ∈ kws ∧ counts x ≠ 0 ∧
        20 * (max (counts L) (counts x) - min (counts L) (counts x)) ≤ total) := by
  unfold substrCheck
  split_ifs with h1 h2 h3 h4
  · constructor
    · exact Or.inl
    · rintro (h | ⟨rfl, hna, -⟩)
      · exact h
      · exact absurd h1 hna
  · constructor
    · exact Or.inl
    · rintro (h | ⟨rfl, -, -, hc, -⟩)
      · exact h
      · exact absurd h3 hc
  · constructor
    · intro h
      rcases List.mem_cons.mp h with rfl | h
      · by_cases hacc : S ∈ acc
        · exact Or.inl hacc
        · exact Or.inr ⟨rfl, hacc, h2, h3, h4⟩
      · exact Or.inl h
    · rintro (h | ⟨rfl, -, -, -, -⟩)
      · exact List.mem_cons_of_mem _ h
      · exact List.mem_cons_self _ _
  · constructor
    · exact Or.inl
    · rintro (h | ⟨rfl, -, -, -, ht⟩)
      · exact h
      · exact absurd ht h4
  · constructor
    · exact Or.inl
    · rintro (h | ⟨rfl, -, hk, -⟩)
      · exact h
      · exact absurd hk h2

theorem mem_substrFold (total : Nat) (counts : List Char → Nat)
    (kws : List (List Char)) (L : List Char) :
    ∀ (l : List (List Char)) (acc : List (List Char)) (S : List Char),
      S ∈ l.foldl (substrCheck total counts kws L) acc ↔
        S ∈ acc ∨ (S ∈ l ∧ S ∈ kws ∧ counts S ≠ 0 ∧
          20 * (max (counts L) (counts S) - min (counts L) (counts S)) ≤ total) := by
  intro l
  induction l with
  | nil =>
    intro acc S
    simp
  | cons x xs ih =>
    intro acc S
    rw [List.foldl_cons, ih, mem_substrCheck]
    constructor
    · rintro ((hacc | ⟨rfl, hna, hk, hc, ht⟩) | ⟨hxs, hP⟩)
      · exact Or.inl hacc
      · exact Or.inr ⟨List.mem_cons_self _ _, hk, hc, ht⟩
      · exact Or.inr ⟨List.mem_cons_of_mem _ hxs, hP⟩
    · rintro (hacc | ⟨hmem, hP⟩)
      · exact Or.inl (Or.inl hacc)
      · rcases List.mem_cons.mp hmem with rfl | hxs
        · by_cases hacc2 : S ∈ acc
          · exact Or.inl (Or.inl hacc2)
          · exact Or.inl (Or.inr ⟨rfl, hacc2, hP⟩)
        · exact Or.inr ⟨hxs, hP⟩

theorem mem_properSubstrings (S L : List Char) :
    S ∈ properSubstrings L ↔ occursIn S L ∧ S ≠ L ∧ S ≠ [] := by
  constructor
  · intro h
    rcases List.mem_filter.mp h with ⟨hm, hf⟩
    simp only [Bool.and_eq_true, Bool.not_eq_true', beq_eq_false_iff_ne, ne_eq] at hf
    rcases List.mem_bind.mp hm with ⟨i, hi, hj⟩
    rcases List.mem_map.mp hj with ⟨j, hjr, rfl⟩
    refine ⟨⟨L.take i, (L.drop i).drop (j - i), ?_⟩, hf.1, hf.2⟩
    rw [List.append_assoc, List.take_append_drop, List.take_append_drop]
  · rintro ⟨⟨u, v, rfl⟩, hne, hnonempty⟩
    have hS : 0 < S.length := List.length_pos.mpr hnonempty
    apply List.mem_filter.mpr
    refine ⟨?_, ?_⟩
    · apply List.mem_bind.mpr
      refine ⟨u.length, ?_, ?_⟩
      · simp only [List.mem_range, List.length_append]
        omega
      · apply List.mem_map.mpr
        refine ⟨u.length + S.length, ?_, ?_⟩
        · simp only [List.mem_range, List.length_append]
          omega
        · have hd : (u ++ S ++ v).drop u.length = S ++ v := by
            rw [List.append_assoc, List.drop_left]
          rw [hd, show u.length + S.length - u.length = S.length from by omega,
            List.take_left]
    · simp only [Bool.and_eq_true, Bool.not_eq_true', beq_eq_false_iff_ne, ne_eq]
      exact ⟨hne, hnonempty⟩

/-- Episode counts for the substring dominance example: ABC occurs in 10
documents and its substring AB in 9, out of 50 documents. -/
def exCounts : List Char → Nat :=
  fun k => if k = "ABC".toList then 10 else if k = "AB".toList then 9 else 0

/-- The example keyword set, already sorted by decreasing length. -/
def exKeywords : List (List Char) := ["ABC".toList, "AB".toList]

/-- C4: processing a not yet removed keyword L marks a string S for
removal exactly when S is a contiguous proper non empty substring of L,
is itself a surviving keyword, is not yet removed, and its episode count
differs from that of L by at most 0.05 times the total document count
(modelled exactly as 20 times the difference at most the total); with 50
documents where ABC occurs in 10 and AB in 9, AB is removed and ABC
survives. The hypothesis that surviving keywords have positive episode
counts discharges the vacuous empty episode guard of the source. -/
theorem substring_dominance (total : Nat) (counts : List Char → Nat)
    (kws : List (List Char)) (L : List Char) (removed : List (List Char))
    (hpos : ∀ k ∈ kws, 0 < counts k) (S : List Char) :
    (S ∈ (properSubstrings L).foldl (substrCheck total counts kws L) removed ↔
      S ∈ removed ∨ (occursIn S L ∧ S ≠ L ∧ S ≠ [] ∧ S ∈ kws ∧ S ∉ removed ∧
        20 * (max (counts L) (counts S) - min (counts L) (counts S)) ≤ total))
    ∧ ("AB".toList ∈ keywords_to_remove 50 exCounts exKeywords
        ∧ "ABC".toList ∈ final_keywords_after_substring 50 exCounts exKeywords) := by
  constructor
  · rw [mem_substrFold, mem_properSubstrings]
    constructor
    · rintro (h | ⟨⟨ho, hne, hnn⟩, hk, -, ht⟩)
      · exact Or.inl h
      · by_cases hr : S ∈ removed
        · exact Or.inl hr
        · exact Or.inr ⟨ho, hne, hnn, hk, hr, ht⟩
    · rintro (h | ⟨ho, hne, hnn, hk, hr, ht⟩)
      · exact Or.inl h
      · exact Or.inr ⟨⟨ho, hne, hnn⟩, hk, by have := hpos S hk; omega, ht⟩
  · exact ⟨by decide, by decide⟩

theorem substring_dominance_witness :
    "AB".toList ∈ (properSubstrings ("ABC".toList)).foldl
      (substrCheck 50 exCounts exKeywords ("ABC".toList)) [] :=
  ((substring_dominance 50 exCounts exKeywords ("ABC".toList) []
      (by decide) ("AB".toList)).1).mpr
    (Or.inr ⟨⟨[], ['C'], by decide⟩, by decide, by decide, by decide,
      by decide, by decide⟩)

/- The short noun cleanup, cleanup_keywords of analyze.py, lines 348 to
   369. The corpus wide role information is an association list from
   candidate surface to the list of roles it was recorded under; absence
   of an entry models absence from the Python defaultdict. Every entry
   of the real dictionary is non empty, since an entry is only created
   together with a first role. -/

def isShortSingleNoun (info : List (List Char × List String)) (kw : List Char) : Bool :=
  decide (kw.length ≤ 2) &&
    (match info.find? (fun p => p.1 == kw) with
     | some p => p.2.all (fun r => r == "名詞")
     | none => false)

def cleanup_keywords (kws : List (List Char))
    (info : List (List Char × List String)) : List (List Char) :=
  kws.filter (fun kw => !(isShortSingleNoun info kw))

/-- C8: the short noun cleanup removes a surviving keyword exactly when
its length is at most two characters and its recorded role set is non
empty and contains only the base noun role 名詞; a short keyword with no
role entry, or with any other recorded role, is kept. -/
theorem cleanup_keywords_spec (kws : List (List Char))
    (info : List (List Char × List String)) (kw : List Char)
    (hinfo : ∀ p ∈ info, p.2 ≠ []) (hkw : kw ∈ kws) :
    kw ∉ cleanup_keywords kws info ↔
      (kw.length ≤ 2 ∧ ∃ p, info.find? (fun q => q.1 == kw) = some p
        ∧ p.2 ≠ [] ∧ ∀ r ∈ p.2, r = "名詞") := by
  have hmem : kw ∈ cleanup_keywords kws info ↔ isShortSingleNoun info kw = false := by
    unfold cleanup_keywords
    rw [List.mem_filter]
    constructor
    · rintro ⟨-, hp⟩
      simpa using hp
    · intro hf
      exact ⟨hkw, by simp [hf]⟩
  constructor
  · intro hnot
    have hshort : isShortSingleNoun info kw = true := by
      cases hb : isShortSingleNoun info kw with
      | false => exact absurd (hmem.mpr hb) hnot
      | true => rfl
    unfold isShortSingleNoun at hshort
    rw [Bool.and_eq_true] at hshort
    obtain ⟨h2, hmatch⟩ := hshort
    refine ⟨of_decide_eq_true h2, ?_⟩
    cases hfind : info.find? (fun p => p.1 == kw) with
    | none =>
      rw [hfind] at hmatch
      exact absurd hmatch (by simp)
    | some p =>
      rw [hfind] at hmatch
      have hall : p.2.all (fun r => r == "名詞") = true := hmatch
      refine ⟨p, rfl, hinfo p (List.mem_of_find?_eq_some hfind), ?_⟩
      intro r hr
      exact eq_of_beq (List.all_eq_true.mp hall r hr)
  · rintro ⟨h2, p, hfind, -, hall⟩
    intro hin
    have hf : isShortSingleNoun info kw = false := hmem.mp hin
    unfold isShortSingleNoun at hf
    rw [hfind] at hf
    have : (decide (kw.length ≤ 2) &&
        p.2.all (fun r => r == "名詞")) = false := hf
    rw [Bool.and_eq_false_iff] at this
    rcases this with hd | ha
    · rw [decide_eq_false_iff_not] at hd
      exact hd h2
    · have : p.2.all (fun r => r == "名詞") = true :=
        List.all_eq_true.mpr (fun r hr => beq_iff_eq.mpr (hall r hr))
      rw [this] at ha
      exact Bool.noConfusion ha

theorem cleanup_keywords_spec_witness :
    "AB".toList ∉ cleanup_keywords [("AB".toList)] [(("AB".toList), ["名詞"])] :=
  (cleanup_keywords_spec [("AB".toList)] [(("AB".toList), ["名詞"])] ("AB".toList)
      (by decide) (by decide)).mpr
    ⟨by decide, ("AB".toList, ["名詞"]), by decide, by decide, by decide⟩

/- The final map, filtered_keyword_to_episodes of analyze.py, lines 500
   to 504, composed with the real occurrence mapper and the frequency
   condition: a keyword is mapped to its frequency filter entry when it
   survived every stage, and dropped otherwise. -/

def filtered_keyword_to_episodes (total : Nat) (batches : List (List (List Char)))
    (docs : List (String × List Char)) (final_keywords : List (List Char))
    (kw : List Char) : Option (List String) :=
  let eps := keyword_to_episodes batches docs kw
  if freqCond total eps then
    if kw ∈ final_keywords then some eps else none
  else none

/-- C10: whenever the final output maps a keyword to a document list,
that list is exactly the list produced by the occurrence mapper: the
frequency, substring dominance and short noun cleanup stages only remove
keywords and never alter a surviving keyword document list. -/
theorem filtered_episodes_frame (total : Nat) (batches : List (List (List Char)))
    (docs : List (String × List Char)) (final_keywords : List (List Char))
    (kw : List Char) (eps : List String)
    (h : filtered_keyword_to_episodes total batches docs final_keywords kw = some eps) :
    eps = keyword_to_episodes batches docs kw := by
  simp only [filtered_keyword_to_episodes] at h
  by_cases h1 : freqCond total (keyword_to_episodes batches docs kw)
  · rw [if_pos h1] at h
    by_cases h2 : kw ∈ final_keywords
    · rw [if_pos h2] at h
      exact (Option.some.inj h).symm
    · rw [if_neg h2] at h
      exact absurd h (by simp)
  · rw [if_neg h1] at h
    exact absurd h (by simp)

theorem filtered_episodes_frame_witness :
    ["d1", "d2", "d3"] = keyword_to_episodes [[("AB".toList)]]
      [("d1", "AB".toList), ("d2", "xABy".toList), ("d3", "AB".toList), ("d4", "Z".toList)]
      ("AB".toList) :=
  filtered_episodes_frame 4 [[("AB".toList)]]
    [("d1", "AB".toList), ("d2", "xABy".toList), ("d3", "AB".toList), ("d4", "Z".toList)]
    [("AB".toList)] ("AB".toList) ["d1", "d2", "d3"] (by decide)
